import Mathlib

/-!
Verification of `auction_optimization.py`: a penalty-method formulation of
single-item optimal auction design.  The program's numeric vectors are
embedded as `List ℚ`; numpy's elementwise operations become `List.map` and
`List.zipWith` over lists of matching length.
-/

namespace AuctionOpt

/-- Total squared-hinge penalty of `potential` (lines 26-38 of
`auction_optimization.py`): allocation bounds, total allocation,
payment non-negativity and individual rationality, added in that order. -/
def totalPenalty (z v : List ℚ) : ℚ :=
  let n := v.length
  let x := z.take n
  let p := z.drop n
  let penalty_alloc_bounds :=
    (x.map (fun xi => (max 0 (-xi)) ^ 2)).sum + (x.map (fun xi => (max 0 (xi - 1)) ^ 2)).sum
  let penalty_total_alloc := (max 0 (x.sum - 1)) ^ 2
  let penalty_payment_nonneg := (p.map (fun pi => (max 0 (-pi)) ^ 2)).sum
  let penalty_ir :=
    (List.zipWith (fun pi vxi => (max 0 (pi - vxi)) ^ 2) p (List.zipWith (· * ·) v x)).sum
  penalty_alloc_bounds + penalty_total_alloc + penalty_payment_nonneg + penalty_ir

/-- Embedding of `potential(z, v, mu)` from `auction_optimization.py`:
`z` has length `2*n` where `n = len(v)`; the first `n` entries are the
allocations `x`, the last `n` the payments `p`; the returned value is
`-sum(p) + (mu/2) * total_penalty`. -/
def potential (z v : List ℚ) (mu : ℚ) : ℚ :=
  let n := v.length
  let p := z.drop n
  let revenue_term := -p.sum
  revenue_term + mu / 2 * totalPenalty z v

/-- Model of `np.argmax` on a list: the index of the first occurrence of the
maximum value (numpy's documented contract: with multiple occurrences of the
maximum, the index of the first occurrence is returned); `0` on `[]`. -/
def argmaxIdx : List ℚ → Nat
  | [] => 0
  | [_] => 0
  | a :: b :: rest =>
      let m := argmaxIdx (b :: rest)
      if a < (b :: rest).getD m 0 then m + 1 else 0

/-- Embedding of `analytical_optimal_solution(v)`: allocation `1.0` and
payment `v[i_star]` at `i_star = np.argmax(v)`, zeros elsewhere, returned as
the concatenation `[x_opt, p_opt]` of length `2*n`. -/
def analytical_optimal_solution (v : List ℚ) : List ℚ :=
  let n := v.length
  let i_star := argmaxIdx v
  let x_opt := (List.range n).map (fun j => if j = i_star then (1 : ℚ) else 0)
  let p_opt := (List.range n).map (fun j => if j = i_star then v.getD i_star 0 else 0)
  x_opt ++ p_opt

/-- Initial guess of `main` (lines 86-89 of the source): equal allocation
`x_i = 1/n` and zero payments `p_i = 0`, concatenated. -/
def initialGuess (n : Nat) : List ℚ :=
  List.replicate n ((1 : ℚ) / n) ++ List.replicate n 0

/-! The spec's formula for the Penalty Potential Evaluator, written
independently with index-based sums. -/

/-- Formula of spec section 4.1, stated with indexed sums: with
`x_i = z[i]` and `p_i = z[n+i]`, the value is the negated total payment
`-sum(p)` plus `mu/2` times the sum of the four squared-hinge penalty terms
(allocation bounds, total allocation, payment non-negativity, individual
rationality). -/
def potentialSpec (z v : List ℚ) (mu : ℚ) : ℚ :=
  -(∑ i ∈ Finset.range v.length, z.getD (v.length + i) 0) +
    mu / 2 *
      ((∑ i ∈ Finset.range v.length, (max 0 (-(z.getD i 0))) ^ 2) +
        (∑ i ∈ Finset.range v.length, (max 0 (z.getD i 0 - 1)) ^ 2) +
        (max 0 ((∑ i ∈ Finset.range v.length, z.getD i 0) - 1)) ^ 2 +
        (∑ i ∈ Finset.range v.length, (max 0 (-(z.getD (v.length + i) 0))) ^ 2) +
        (∑ i ∈ Finset.range v.length,
          (max 0 (z.getD (v.length + i) 0 - v.getD i 0 * z.getD i 0)) ^ 2))

/-! Embedding of `main` (lines 58-130 of the source).  The external solvers
`steepest_descent` and `newton` come from the separate `optimization`
module and are parameters of the model; `newton` may raise, which is
modelled as `Except`.  Argument parsing (lines 76-79) converts the
comma-separated valuation string with Python `float`, raising `ValueError`
with a fixed message on any malformed token. -/

/-- Value of a string of decimal digits, as `foldl` over the characters. -/
def digitsToNat (cs : List Char) : Nat :=
  cs.foldl (fun a c => 10 * a + (c.toNat - 48)) 0

/-- Model of Python `str.strip()` on a token, removing leading and trailing
spaces. -/
def stripSpaces (cs : List Char) : List Char :=
  ((cs.dropWhile (· = ' ')).reverse.dropWhile (· = ' ')).reverse

/-- Model of Python `float(token)`, restricted to the finite decimal
literals relevant here: optional sign, then digits with an optional decimal
point (at least one digit overall); anything else fails with `none`. -/
def parseFloatTok (cs0 : List Char) : Option ℚ :=
  let sb : Bool × List Char :=
    match cs0 with
    | '-' :: rest => (true, rest)
    | '+' :: rest => (false, rest)
    | _ => (false, cs0)
  let intPart := sb.2.takeWhile Char.isDigit
  let rest := sb.2.dropWhile Char.isDigit
  let mag : Option ℚ :=
    match rest with
    | [] => if intPart.isEmpty then none else some ((digitsToNat intPart : ℕ) : ℚ)
    | '.' :: frac =>
        if frac.all Char.isDigit && (!intPart.isEmpty || !frac.isEmpty) then
          some ((digitsToNat intPart : ℚ) + (digitsToNat frac : ℚ) / 10 ^ frac.length)
        else none
    | _ => none
  mag.map (fun q => if sb.1 then -q else q)

/-- Model of Python `s.split(sep)` for a one-character separator: always
returns at least one (possibly empty) token. -/
def splitOnComma (cs : List Char) : List (List Char) :=
  cs.foldr (fun c acc =>
    if c = ',' then [] :: acc
    else
      match acc with
      | [] => [[c]]
      | t :: rest => (c :: t) :: rest) [[]]

/-- Parse every token of the split valuation string; any failing token makes
the whole parse fail (the list comprehension at line 77 of the source). -/
def parseTokens : List (List Char) → Option (List ℚ)
  | [] => some []
  | t :: ts =>
      match parseFloatTok (stripSpaces t), parseTokens ts with
      | some q, some qs => some (q :: qs)
      | _, _ => none

/-- Lines 76-79 of `main`: parse the `--valuations` string, failing with the
source's `ValueError` message when any token is not a number. -/
def parseValuations (s : String) : Except String (List ℚ) :=
  match parseTokens (splitOnComma s.toList) with
  | some vs => Except.ok vs
  | none => Except.error "Error parsing valuations. Ensure they are comma-separated numbers."

/-- Signature of `steepest_descent(f, x0, alpha, convergence_tol, max_iter)`
from the external `optimization` module; it always returns an iterate. -/
abbrev GradSolver := (List ℚ → ℚ) → List ℚ → ℚ → ℚ → Nat → List ℚ

/-- Signature of `newton(f, x0, convergence_tol, max_iter)` from the
external `optimization` module; it may raise, modelled as `Except`. -/
abbrev NewtonSolver := (List ℚ → ℚ) → List ℚ → ℚ → Nat → Except String (List ℚ)

/-- Command-line arguments of `main` with the argparse defaults
(lines 59-73 of the source). -/
structure Args where
  valuations : String
  mu : ℚ := 100
  alpha : ℚ := 1 / 100
  tol : ℚ := 1 / 1000000
  max_iter : Nat := 1000
  max_iter_newton : Nat := 100

/-- Everything `main` reports: the initial guess, each solver's solution
and revenue (`newton`'s is absent when the solver fails), the analytical
solution and revenue, and the absolute revenue errors. -/
structure Report where
  z0 : List ℚ
  z_sd : List ℚ
  revenue_sd : ℚ
  z_newton : Option (List ℚ)
  revenue_newton : Option ℚ
  z_opt : List ℚ
  optimal_revenue : ℚ
  sd_error : ℚ
  newton_error : Option ℚ

/-- Embedding of `main` (lines 58-130), parameterized by the two external
solvers: parse the valuations (failure aborts the run), build the bound
objective and the initial guess, run steepest descent, run Newton catching
any failure as `none`, compute the analytical solution, and report revenues
and absolute errors, skipping Newton's error when it produced no result. -/
def mainModel (sd : GradSolver) (nt : NewtonSolver) (args : Args) :
    Except String Report :=
  match parseValuations args.valuations with
  | Except.error e => Except.error e
  | Except.ok v =>
    let n := v.length
    let potential_func := fun z => potential z v args.mu
    let z0 := initialGuess n
    let z_sd := sd potential_func z0 args.alpha args.tol args.max_iter
    let revenue_sd := (z_sd.drop n).sum
    let z_newton : Option (List ℚ) :=
      match nt potential_func z0 args.tol args.max_iter_newton with
      | Except.ok z => some z
      | Except.error _ => none
    let z_opt := analytical_optimal_solution v
    let optimal_revenue := (z_opt.drop n).sum
    Except.ok {
      z0 := z0
      z_sd := z_sd
      revenue_sd := revenue_sd
      z_newton := z_newton
      revenue_newton := z_newton.map (fun z => (z.drop n).sum)
      z_opt := z_opt
      optimal_revenue := optimal_revenue
      sd_error := |optimal_revenue - revenue_sd|
      newton_error := z_newton.map (fun z => |optimal_revenue - (z.drop n).sum|) }

/-- A trivial gradient solver (returns its initial iterate), used to
instantiate the driver model at concrete inputs. -/
def sdStub : GradSolver := fun _ z _ _ _ => z

/-- A Newton solver that always fails, used to instantiate the driver model
at concrete inputs. -/
def ntStub : NewtonSolver := fun _ _ _ _ => Except.error "singular Hessian"

example : argmaxIdx [1, 3, 2] = 1 := by decide
example : argmaxIdx [1, 3, 3] = 1 := by decide
example : argmaxIdx [5, 3, 5] = 0 := by decide
example : analytical_optimal_solution [5] = [1, 5] := by decide
example : potential [0, 1, 0, 0, 0, 0] [10, 20, 15] 100 = 0 := by
  norm_num [potential, totalPenalty]
example : potential (initialGuess 3) [10, 20, 15] 100 = 0 := by
  norm_num [potential, totalPenalty, initialGuess, List.replicate]

/-! Helper lemmas: indexed access and `Finset.range`-indexed sums for the
list operations used by the embedding. -/

lemma getD_take (z : List ℚ) : ∀ (n i : Nat), i < n → (z.take n).getD i 0 = z.getD i 0 := by
  induction z with
  | nil => intro n i _; simp
  | cons a zs ih =>
    intro n i h
    cases n with
    | zero => omega
    | succ n' =>
      cases i with
      | zero => simp
      | succ i' => simpa using ih n' i' (by omega)

lemma getD_drop (z : List ℚ) : ∀ (n i : Nat), (z.drop n).getD i 0 = z.getD (n + i) 0 := by
  induction z with
  | nil => intro n i; simp
  | cons a zs ih =>
    intro n i
    cases n with
    | zero => simp
    | succ n' => simp [Nat.succ_add, ih n' i]

lemma getD_zipWith (g : ℚ → ℚ → ℚ) :
    ∀ (a b : List ℚ) (i : Nat), i < a.length → i < b.length →
      (List.zipWith g a b).getD i 0 = g (a.getD i 0) (b.getD i 0) := by
  intro a
  induction a with
  | nil => intro b i h _; simp at h
  | cons x xs ih =>
    intro b i h1 h2
    cases b with
    | nil => simp at h2
    | cons y ys =>
      cases i with
      | zero => simp
      | succ i' => simpa using ih ys i' (by simpa using h1) (by simpa using h2)

lemma sum_map_range {α : Type} (d : α) (l : List α) (f : α → ℚ) :
    (l.map f).sum = ∑ i ∈ Finset.range l.length, f (l.getD i d) := by
  induction l with
  | nil => simp
  | cons a l ih =>
    rw [List.map_cons, List.sum_cons, ih, List.length_cons, Finset.sum_range_succ']
    simp [add_comm]

lemma list_sum_range (l : List ℚ) : l.sum = ∑ i ∈ Finset.range l.length, l.getD i 0 := by
  simpa using sum_map_range 0 l id

lemma sum_zipWith_range (g : ℚ → ℚ → ℚ) :
    ∀ (a b : List ℚ), a.length ≤ b.length →
      (List.zipWith g a b).sum = ∑ i ∈ Finset.range a.length, g (a.getD i 0) (b.getD i 0) := by
  intro a
  induction a with
  | nil => intro b _; simp
  | cons x xs ih =>
    intro b h
    cases b with
    | nil => simp at h
    | cons y ys =>
      rw [List.zipWith_cons_cons, List.sum_cons, ih ys (by simpa using h), List.length_cons,
        Finset.sum_range_succ']
      simp [add_comm]

lemma getD_replicate (a : ℚ) : ∀ (n i : Nat), i < n → (List.replicate n a).getD i 0 = a := by
  intro n
  induction n with
  | zero => omega
  | succ n ih =>
    intro i h
    cases i with
    | zero => simp [List.replicate]
    | succ i' => simpa [List.replicate] using ih i' (by omega)

lemma getD_map_range (f : Nat → ℚ) (n i : Nat) (h : i < n) :
    ((List.range n).map f).getD i 0 = f i := by
  rw [List.getD_eq_getElem _ _ (by simpa using h)]
  simp

lemma getD_range (n i : Nat) (h : i < n) : (List.range n).getD i 0 = i := by
  rw [List.getD_eq_getElem _ _ (by simpa using h)]
  simp

/-! Properties of `argmaxIdx`: it is in range, attains the maximum, and is
the first index doing so. -/

lemma argmaxIdx_cons_cons (a b : ℚ) (rest : List ℚ) :
    argmaxIdx (a :: b :: rest) =
      if a < (b :: rest).getD (argmaxIdx (b :: rest)) 0 then argmaxIdx (b :: rest) + 1 else 0 :=
  rfl

theorem argmaxIdx_lt_length : ∀ (v : List ℚ), v ≠ [] → argmaxIdx v < v.length
  | [], h => absurd rfl h
  | [_], _ => by simp [argmaxIdx]
  | a :: b :: rest, _ => by
      have ih := argmaxIdx_lt_length (b :: rest) (by simp)
      rw [argmaxIdx_cons_cons]
      split
      · simpa using ih
      · simp

theorem argmaxIdx_is_max : ∀ (v : List ℚ) (j : Nat), j < v.length →
    v.getD j 0 ≤ v.getD (argmaxIdx v) 0
  | [], j, h => by simp at h
  | [a], j, h => by
      have hj : j = 0 := by simpa using h
      subst hj; simp [argmaxIdx]
  | a :: b :: rest, j, h => by
      by_cases hc : a < (b :: rest).getD (argmaxIdx (b :: rest)) 0
      · rw [argmaxIdx_cons_cons, if_pos hc]
        cases j with
        | zero =>
          simp only [List.getD_cons_zero, List.getD_cons_succ]
          exact le_of_lt hc
        | succ k =>
          simp only [List.getD_cons_succ]
          exact argmaxIdx_is_max (b :: rest) k (by simpa using h)
      · rw [argmaxIdx_cons_cons, if_neg hc]
        cases j with
        | zero => simp
        | succ k =>
          push_neg at hc
          have hk := argmaxIdx_is_max (b :: rest) k (by simpa using h)
          simp only [List.getD_cons_succ, List.getD_cons_zero]
          exact le_trans hk hc

theorem argmaxIdx_first : ∀ (v : List ℚ) (j : Nat), j < argmaxIdx v →
    v.getD j 0 < v.getD (argmaxIdx v) 0
  | [], j, h => by simp [argmaxIdx] at h
  | [a], j, h => by simp [argmaxIdx] at h
  | a :: b :: rest, j, h => by
      by_cases hc : a < (b :: rest).getD (argmaxIdx (b :: rest)) 0
      · rw [argmaxIdx_cons_cons, if_pos hc] at h ⊢
        cases j with
        | zero =>
          simp only [List.getD_cons_zero, List.getD_cons_succ]
          exact hc
        | succ k =>
          simp only [List.getD_cons_succ]
          exact argmaxIdx_first (b :: rest) k (by omega)
      · rw [argmaxIdx_cons_cons, if_neg hc] at h
        omega

lemma argmaxIdx_eq_of_least (v : List ℚ) (i : Nat) (hi : i < v.length)
    (hmax : ∀ j, j < v.length → v.getD j 0 ≤ v.getD i 0)
    (hfirst : ∀ j, j < i → v.getD j 0 < v.getD i 0) :
    argmaxIdx v = i := by
  have hne : v ≠ [] := by
    cases v with
    | nil => simp at hi
    | cons a l => simp
  have hm := argmaxIdx_lt_length v hne
  rcases lt_trichotomy (argmaxIdx v) i with h | h | h
  · exact absurd (hfirst _ h) (not_lt.2 (argmaxIdx_is_max v i hi))
  · exact h
  · exact absurd (argmaxIdx_first v i h) (not_lt.2 (hmax _ hm))

/-! Structure of the analytical solution vector. -/

lemma analytical_take (v : List ℚ) :
    (analytical_optimal_solution v).take v.length
      = (List.range v.length).map (fun j => if j = argmaxIdx v then (1 : ℚ) else 0) := by
  unfold analytical_optimal_solution
  exact List.take_left' (by simp)

lemma analytical_drop (v : List ℚ) :
    (analytical_optimal_solution v).drop v.length
      = (List.range v.length).map
          (fun j => if j = argmaxIdx v then v.getD (argmaxIdx v) 0 else 0) := by
  unfold analytical_optimal_solution
  exact List.drop_left' (by simp)

lemma length_analytical (v : List ℚ) :
    (analytical_optimal_solution v).length = 2 * v.length := by
  unfold analytical_optimal_solution
  simp
  ring

lemma sum_indicator (n i : Nat) (c : ℚ) (h : i < n) :
    ((List.range n).map (fun j => if j = i then c else 0)).sum = c := by
  rw [sum_map_range 0, List.length_range]
  have he : ∀ j ∈ Finset.range n,
      (if (List.range n).getD j 0 = i then c else 0) = (if j = i then c else 0) := by
    intro j hj
    rw [getD_range n j (Finset.mem_range.1 hj)]
  rw [Finset.sum_congr rfl he]
  simp [Finset.sum_ite_eq', h]

lemma analytical_getD_alloc (v : List ℚ) (j : Nat) (hj : j < v.length) :
    (analytical_optimal_solution v).getD j 0 = if j = argmaxIdx v then 1 else 0 := by
  rw [← getD_take (analytical_optimal_solution v) v.length j hj, analytical_take,
    getD_map_range _ _ _ hj]

lemma analytical_getD_pay (v : List ℚ) (j : Nat) (hj : j < v.length) :
    (analytical_optimal_solution v).getD (v.length + j) 0
      = if j = argmaxIdx v then v.getD (argmaxIdx v) 0 else 0 := by
  rw [← getD_drop, analytical_drop, getD_map_range _ _ _ hj]

lemma analytical_revenue (v : List ℚ) (hne : v ≠ []) :
    ((analytical_optimal_solution v).drop v.length).sum = v.getD (argmaxIdx v) 0 := by
  rw [analytical_drop]
  exact sum_indicator _ _ _ (argmaxIdx_lt_length v hne)

/-! Feasible points have zero total penalty. -/

lemma totalPenalty_eq_zero (z v : List ℚ) (hz : z.length = 2 * v.length)
    (hx0 : ∀ i, i < v.length → 0 ≤ z.getD i 0)
    (hx1 : ∀ i, i < v.length → z.getD i 0 ≤ 1)
    (hsum : (z.take v.length).sum ≤ 1)
    (hp : ∀ i, i < v.length → 0 ≤ z.getD (v.length + i) 0)
    (hir : ∀ i, i < v.length → z.getD (v.length + i) 0 ≤ v.getD i 0 * z.getD i 0) :
    totalPenalty z v = 0 := by
  have hxlen : (z.take v.length).length = v.length := by
    rw [List.length_take]
    omega
  have hplen : (z.drop v.length).length = v.length := by
    rw [List.length_drop]
    omega
  have h1 : ((z.take v.length).map fun xi => (max 0 (-xi)) ^ 2).sum = 0 := by
    rw [sum_map_range 0, hxlen]
    apply Finset.sum_eq_zero
    intro j hj
    have hjn := Finset.mem_range.1 hj
    rw [getD_take z v.length j hjn, max_eq_left (neg_nonpos.2 (hx0 j hjn))]
    norm_num
  have h2 : ((z.take v.length).map fun xi => (max 0 (xi - 1)) ^ 2).sum = 0 := by
    rw [sum_map_range 0, hxlen]
    apply Finset.sum_eq_zero
    intro j hj
    have hjn := Finset.mem_range.1 hj
    rw [getD_take z v.length j hjn, max_eq_left (sub_nonpos.2 (hx1 j hjn))]
    norm_num
  have h3 : (max 0 ((z.take v.length).sum - 1)) ^ 2 = (0 : ℚ) := by
    rw [max_eq_left (sub_nonpos.2 hsum)]
    norm_num
  have h4 : ((z.drop v.length).map fun pi => (max 0 (-pi)) ^ 2).sum = 0 := by
    rw [sum_map_range 0, hplen]
    apply Finset.sum_eq_zero
    intro j hj
    have hjn := Finset.mem_range.1 hj
    rw [getD_drop, max_eq_left (neg_nonpos.2 (hp j hjn))]
    norm_num
  have h5 : (List.zipWith (fun pi vxi => (max 0 (pi - vxi)) ^ 2) (z.drop v.length)
      (List.zipWith (· * ·) v (z.take v.length))).sum = 0 := by
    rw [sum_zipWith_range _ _ _ (by rw [hplen, List.length_zipWith, hxlen]; omega), hplen]
    apply Finset.sum_eq_zero
    intro j hj
    have hjn := Finset.mem_range.1 hj
    rw [getD_drop, getD_zipWith _ v (z.take v.length) j hjn (by omega),
      getD_take z v.length j hjn]
    rw [max_eq_left (sub_nonpos.2 (hir j hjn))]
    norm_num
  simp only [totalPenalty]
  rw [h1, h2, h3, h4, h5]
  norm_num

/-- At a feasible point the potential is exactly the negated payment sum. -/
lemma potential_of_zero_penalty (z v : List ℚ) (mu : ℚ)
    (h : totalPenalty z v = 0) : potential z v mu = -(z.drop v.length).sum := by
  unfold potential
  rw [h]
  ring


/-- C1: for every valuation vector of length `n ≥ 1`, every solution vector
of length `2n` and every `mu`, `potential` returns exactly the spec's
formula: the negated payment sum plus `mu/2` times the sum of the four
squared-hinge penalty terms. -/
theorem potential_matches_spec (z v : List ℚ) (mu : ℚ)
    (hn : 1 ≤ v.length) (hz : z.length = 2 * v.length) :
    potential z v mu = potentialSpec z v mu := by
  have hxlen : (z.take v.length).length = v.length := by
    rw [List.length_take]
    omega
  have hplen : (z.drop v.length).length = v.length := by
    rw [List.length_drop]
    omega
  have e1 : (z.drop v.length).sum = ∑ i ∈ Finset.range v.length, z.getD (v.length + i) 0 := by
    rw [list_sum_range, hplen]
    exact Finset.sum_congr rfl (fun j _ => by rw [getD_drop])
  have e2 : ((z.take v.length).map fun xi => (max 0 (-xi)) ^ 2).sum
      = ∑ i ∈ Finset.range v.length, (max 0 (-(z.getD i 0))) ^ 2 := by
    rw [sum_map_range 0, hxlen]
    exact Finset.sum_congr rfl
      (fun j hj => by rw [getD_take z v.length j (Finset.mem_range.1 hj)])
  have e3 : ((z.take v.length).map fun xi => (max 0 (xi - 1)) ^ 2).sum
      = ∑ i ∈ Finset.range v.length, (max 0 (z.getD i 0 - 1)) ^ 2 := by
    rw [sum_map_range 0, hxlen]
    exact Finset.sum_congr rfl
      (fun j hj => by rw [getD_take z v.length j (Finset.mem_range.1 hj)])
  have e4 : (z.take v.length).sum = ∑ i ∈ Finset.range v.length, z.getD i 0 := by
    rw [list_sum_range, hxlen]
    exact Finset.sum_congr rfl
      (fun j hj => by rw [getD_take z v.length j (Finset.mem_range.1 hj)])
  have e5 : ((z.drop v.length).map fun pi => (max 0 (-pi)) ^ 2).sum
      = ∑ i ∈ Finset.range v.length, (max 0 (-(z.getD (v.length + i) 0))) ^ 2 := by
    rw [sum_map_range 0, hplen]
    exact Finset.sum_congr rfl (fun j _ => by rw [getD_drop])
  have e6 : (List.zipWith (fun pi vxi => (max 0 (pi - vxi)) ^ 2) (z.drop v.length)
        (List.zipWith (· * ·) v (z.take v.length))).sum
      = ∑ i ∈ Finset.range v.length,
          (max 0 (z.getD (v.length + i) 0 - v.getD i 0 * z.getD i 0)) ^ 2 := by
    rw [sum_zipWith_range _ _ _ (by rw [hplen, List.length_zipWith, hxlen]; omega), hplen]
    refine Finset.sum_congr rfl (fun j hj => ?_)
    have hjn := Finset.mem_range.1 hj
    rw [getD_drop, getD_zipWith _ v (z.take v.length) j hjn (by omega),
      getD_take z v.length j hjn]
  simp only [potential, totalPenalty, potentialSpec]
  rw [e1, e2, e3, e4, e5, e6]

/-- Witness for C1 at `v = [10, 20, 15]`, `z = [0, 1, 0, 0, 0, 0]`,
`mu = 100`. -/
theorem potential_matches_spec_witness :
    potential [0, 1, 0, 0, 0, 0] [10, 20, 15] 100
      = potentialSpec [0, 1, 0, 0, 0, 0] [10, 20, 15] 100 :=
  potential_matches_spec [0, 1, 0, 0, 0, 0] [10, 20, 15] 100 (by norm_num) (by norm_num)

/-- C4: for every valuation vector of length `n ≥ 1`, every `mu`, and every
solution vector of length `2n` that is fully feasible (`0 ≤ x_i ≤ 1`,
`p_i ≥ 0`, `p_i ≤ v_i * x_i`, `sum(x) ≤ 1`), all four penalty terms vanish
and `potential` returns exactly the negated payment sum `-sum(p)`. -/
theorem feasible_potential_eq_neg_revenue (z v : List ℚ) (mu : ℚ)
    (_hn : 1 ≤ v.length) (hz : z.length = 2 * v.length)
    (hx0 : ∀ i, i < v.length → 0 ≤ z.getD i 0)
    (hx1 : ∀ i, i < v.length → z.getD i 0 ≤ 1)
    (hsum : (z.take v.length).sum ≤ 1)
    (hp : ∀ i, i < v.length → 0 ≤ z.getD (v.length + i) 0)
    (hir : ∀ i, i < v.length → z.getD (v.length + i) 0 ≤ v.getD i 0 * z.getD i 0) :
    totalPenalty z v = 0 ∧ potential z v mu = -(z.drop v.length).sum := by
  have h0 := totalPenalty_eq_zero z v hz hx0 hx1 hsum hp hir
  exact ⟨h0, potential_of_zero_penalty z v mu h0⟩

/-- Witness for C4: `v = [10, 20, 15]`, `z = [0, 1, 0, 0, 0, 0]`,
`mu = 100` is fully feasible and `potential` evaluates to `-0 = 0`. -/
theorem feasible_potential_eq_neg_revenue_witness :
    potential [0, 1, 0, 0, 0, 0] [10, 20, 15] 100 = 0 := by
  have h := feasible_potential_eq_neg_revenue [0, 1, 0, 0, 0, 0] [10, 20, 15] 100
    (by norm_num) (by norm_num) (by decide) (by decide) (by norm_num) (by decide)
    (by intro i hi; norm_num at hi; interval_cases i <;> norm_num)
  rw [h.2]
  norm_num

lemma mem_zipWith_exists {g : ℚ → ℚ → ℚ} :
    ∀ {a b : List ℚ} {t : ℚ}, t ∈ List.zipWith g a b → ∃ x y, t = g x y := by
  intro a
  induction a with
  | nil => intro b t ht; simp at ht
  | cons x xs ih =>
    intro b t ht
    cases b with
    | nil => simp at ht
    | cons y ys =>
      rw [List.zipWith_cons_cons, List.mem_cons] at ht
      rcases ht with h | h
      · exact ⟨x, y, h⟩
      · exact ih h

/-- The total penalty is a sum of squares, hence non-negative. -/
lemma totalPenalty_nonneg (z v : List ℚ) : 0 ≤ totalPenalty z v := by
  simp only [totalPenalty]
  have hsq : ∀ l : List ℚ, ∀ f : ℚ → ℚ, (∀ t, 0 ≤ f t) → 0 ≤ (l.map f).sum := by
    intro l f hf
    apply List.sum_nonneg
    intro t ht
    rcases List.mem_map.1 ht with ⟨s, _, hs⟩
    exact hs ▸ hf s
  have h1 := hsq (z.take v.length) (fun xi => (max 0 (-xi)) ^ 2) (fun t => sq_nonneg _)
  have h2 := hsq (z.take v.length) (fun xi => (max 0 (xi - 1)) ^ 2) (fun t => sq_nonneg _)
  have h4 := hsq (z.drop v.length) (fun pi => (max 0 (-pi)) ^ 2) (fun t => sq_nonneg _)
  have h3 : (0 : ℚ) ≤ (max 0 ((z.take v.length).sum - 1)) ^ 2 := sq_nonneg _
  have h5 : (0 : ℚ) ≤ (List.zipWith (fun pi vxi => (max 0 (pi - vxi)) ^ 2) (z.drop v.length)
      (List.zipWith (· * ·) v (z.take v.length))).sum := by
    apply List.sum_nonneg
    intro t ht
    rcases mem_zipWith_exists ht with ⟨x, y, hxy⟩
    exact hxy ▸ sq_nonneg _
  linarith

/-- C5: at any fixed `z` violating at least one constraint (positive total
penalty), the potential is monotonically non-decreasing in `mu`. -/
theorem potential_mono_in_mu (z v : List ℚ) (mu1 mu2 : ℚ)
    (hmu : mu1 ≤ mu2) (hviol : 0 < totalPenalty z v) :
    potential z v mu1 ≤ potential z v mu2 := by
  simp only [potential]
  have hP : 0 ≤ totalPenalty z v := le_of_lt hviol
  have : mu1 / 2 * totalPenalty z v ≤ mu2 / 2 * totalPenalty z v :=
    mul_le_mul_of_nonneg_right (by linarith) hP
  linarith

/-- Witness for C5: `z = [2, 0]`, `v = [1]` violates the allocation upper
bound, and the potential at `mu = 1` is at most the potential at `mu = 2`. -/
theorem potential_mono_in_mu_witness :
    potential [2, 0] [1] 1 ≤ potential [2, 0] [1] 2 :=
  potential_mono_in_mu [2, 0] [1] 1 2 (by norm_num)
    (by norm_num [totalPenalty])

/-- C2: for every non-empty valuation vector with a unique maximum at index
`i`, `analytical_optimal_solution` returns a vector of length `2n` whose
allocation part is `1` at `i` and `0` elsewhere, whose payment part is the
maximum valuation at `i` and `0` elsewhere, and whose payment sum (the
revenue) is exactly the maximum valuation. -/
theorem analytical_unique_max (v : List ℚ) (i : Nat) (hi : i < v.length)
    (huniq : ∀ j, j < v.length → j ≠ i → v.getD j 0 < v.getD i 0) :
    (analytical_optimal_solution v).length = 2 * v.length ∧
    (∀ j, j < v.length →
      (analytical_optimal_solution v).getD j 0 = if j = i then 1 else 0) ∧
    (∀ j, j < v.length →
      (analytical_optimal_solution v).getD (v.length + j) 0
        = if j = i then v.getD i 0 else 0) ∧
    ((analytical_optimal_solution v).drop v.length).sum = v.getD i 0 := by
  have hmax : ∀ j, j < v.length → v.getD j 0 ≤ v.getD i 0 := by
    intro j hj
    by_cases h : j = i
    · subst h; exact le_refl _
    · exact le_of_lt (huniq j hj h)
  have hfirst : ∀ j, j < i → v.getD j 0 < v.getD i 0 :=
    fun j hj => huniq j (lt_trans hj hi) (by omega)
  have harg : argmaxIdx v = i := argmaxIdx_eq_of_least v i hi hmax hfirst
  have hne : v ≠ [] := by
    cases v with
    | nil => simp at hi
    | cons a l => simp
  refine ⟨length_analytical v, ?_, ?_, ?_⟩
  · intro j hj
    rw [analytical_getD_alloc v j hj, harg]
  · intro j hj
    rw [analytical_getD_pay v j hj, harg]
  · rw [analytical_revenue v hne, harg]

/-- Witness for C2 at the single-bidder input `v = [5]`: the oracle returns
`x = [1]`, `p = [5]` and the revenue is `5`. -/
theorem analytical_unique_max_witness :
    analytical_optimal_solution [5] = [1, 5] ∧
    ((analytical_optimal_solution [5]).drop 1).sum = 5 := by
  have h := analytical_unique_max [5] 0 (by norm_num)
    (by intro j hj hne; simp at hj; omega)
  refine ⟨by decide, ?_⟩
  simpa using h.2.2.2

/-- C3: for every non-empty valuation vector in which two or more bidders
tie for the maximum, `analytical_optimal_solution` deterministically selects
the lowest index `i` among the tied maximal bidders (`np.argmax` returns the
first occurrence): the allocation is `1` and the payment is the maximum
valuation exactly at `i`, and `0` at every other index.  The embedding is a
pure function, so repeated calls agree identically. -/
theorem analytical_tie_lowest_index (v : List ℚ) (i : Nat) (hi : i < v.length)
    (hmax : ∀ j, j < v.length → v.getD j 0 ≤ v.getD i 0)
    (hfirst : ∀ j, j < i → v.getD j 0 < v.getD i 0)
    (_htie : ∃ k, k < v.length ∧ k ≠ i ∧ v.getD k 0 = v.getD i 0) :
    argmaxIdx v = i ∧
    (∀ j, j < v.length →
      (analytical_optimal_solution v).getD j 0 = if j = i then 1 else 0) ∧
    (∀ j, j < v.length →
      (analytical_optimal_solution v).getD (v.length + j) 0
        = if j = i then v.getD i 0 else 0) := by
  have harg : argmaxIdx v = i := argmaxIdx_eq_of_least v i hi hmax hfirst
  refine ⟨harg, ?_, ?_⟩
  · intro j hj
    rw [analytical_getD_alloc v j hj, harg]
  · intro j hj
    rw [analytical_getD_pay v j hj, harg]

/-- Witness for C3 at `v = [2, 2]`: indices 0 and 1 tie and the oracle
selects index 0. -/
theorem analytical_tie_lowest_index_witness :
    argmaxIdx [2, 2] = 0 ∧ analytical_optimal_solution [2, 2] = [1, 0, 2, 0] := by
  have h := analytical_tie_lowest_index [2, 2] 0 (by norm_num)
    (by intro j hj; simp at hj; interval_cases j <;> decide)
    (by intro j hj; exact absurd hj (Nat.not_lt_zero j))
    ⟨1, by norm_num, by omega, by decide⟩
  exact ⟨h.1, by decide⟩

/-- C8: for every number of bidders `n ≥ 1` and non-negative valuations, the
driver's initial guess (`x_i = 1/n`, `p_i = 0`) allocates exactly `1` in
total, is exactly feasible (zero total penalty), and has potential `0` for
every `mu`. -/
theorem initial_guess_feasible (v : List ℚ) (mu : ℚ) (hn : 1 ≤ v.length)
    (hv : ∀ i, i < v.length → 0 ≤ v.getD i 0) :
    ((initialGuess v.length).take v.length).sum = 1 ∧
    totalPenalty (initialGuess v.length) v = 0 ∧
    potential (initialGuess v.length) v mu = 0 := by
  have hnQ : (0 : ℚ) < (v.length : ℚ) := by
    exact_mod_cast Nat.lt_of_lt_of_le Nat.zero_lt_one hn
  have ht : (initialGuess v.length).take v.length
      = List.replicate v.length ((1 : ℚ) / v.length) := by
    unfold initialGuess
    exact List.take_left' (by simp)
  have hd : (initialGuess v.length).drop v.length = List.replicate v.length 0 := by
    unfold initialGuess
    exact List.drop_left' (by simp)
  have hsum1 : (List.replicate v.length ((1 : ℚ) / v.length)).sum = 1 := by
    rw [List.sum_replicate, nsmul_eq_mul]
    field_simp
  have hz : (initialGuess v.length).length = 2 * v.length := by
    unfold initialGuess
    simp
    ring
  have hpen : totalPenalty (initialGuess v.length) v = 0 := by
    apply totalPenalty_eq_zero _ _ hz
    · intro i hi
      rw [← getD_take (initialGuess v.length) v.length i hi, ht, getD_replicate _ _ _ hi]
      positivity
    · intro i hi
      rw [← getD_take (initialGuess v.length) v.length i hi, ht, getD_replicate _ _ _ hi]
      rw [div_le_one hnQ]
      exact_mod_cast hn
    · rw [ht, hsum1]
    · intro i hi
      rw [← getD_drop, hd, getD_replicate _ _ _ hi]
    · intro i hi
      rw [← getD_drop, hd, getD_replicate _ _ _ hi,
        ← getD_take (initialGuess v.length) v.length i hi, ht, getD_replicate _ _ _ hi]
      exact mul_nonneg (hv i hi) (by positivity)
  refine ⟨ht ▸ hsum1, hpen, ?_⟩
  rw [potential_of_zero_penalty _ _ _ hpen, hd]
  simp

/-- Witness for C8 at `v = [10, 20, 15]`, `mu = 100`. -/
theorem initial_guess_feasible_witness :
    ((initialGuess 3).take 3).sum = 1 ∧ potential (initialGuess 3) [10, 20, 15] 100 = 0 := by
  have h := initial_guess_feasible [10, 20, 15] 100 (by norm_num)
    (by intro i hi; simp at hi; interval_cases i <;> norm_num)
  exact ⟨by simpa using h.1, by simpa using h.2.2⟩

/-- C10: for every non-empty valuation vector with non-negative entries and
every `mu`, the analytical oracle's output is fully feasible for the penalty
evaluator (zero total penalty), and the potential at the analytical optimum
is the negated maximum valuation, independent of `mu`. -/
theorem analytical_feasible_potential (v : List ℚ) (mu : ℚ) (hne : v ≠ [])
    (hv : ∀ i, i < v.length → 0 ≤ v.getD i 0) :
    totalPenalty (analytical_optimal_solution v) v = 0 ∧
    potential (analytical_optimal_solution v) v mu = -(v.getD (argmaxIdx v) 0) ∧
    (∀ j, j < v.length → v.getD j 0 ≤ v.getD (argmaxIdx v) 0) := by
  have hlt := argmaxIdx_lt_length v hne
  have hM := hv _ hlt
  have hpen : totalPenalty (analytical_optimal_solution v) v = 0 := by
    apply totalPenalty_eq_zero _ _ (length_analytical v)
    · intro i hi
      rw [analytical_getD_alloc v i hi]
      split <;> norm_num
    · intro i hi
      rw [analytical_getD_alloc v i hi]
      split <;> norm_num
    · rw [analytical_take, sum_indicator _ _ _ hlt]
    · intro i hi
      rw [analytical_getD_pay v i hi]
      split
      · exact hM
      · exact le_refl 0
    · intro i hi
      rw [analytical_getD_pay v i hi, analytical_getD_alloc v i hi]
      by_cases hji : i = argmaxIdx v
      · subst hji
        simp
      · simp [hji]
  refine ⟨hpen, ?_, argmaxIdx_is_max v⟩
  rw [potential_of_zero_penalty _ _ _ hpen, analytical_revenue v hne]

/-- Witness for C10 at `v = [1, 2]`, `mu = 7`: the potential at the
analytical optimum is `-2`. -/
theorem analytical_feasible_potential_witness :
    potential (analytical_optimal_solution [1, 2]) [1, 2] 7 = -2 := by
  have h := analytical_feasible_potential [1, 2] 7 (by simp)
    (by intro i hi; simp at hi; interval_cases i <;> norm_num)
  have harg : argmaxIdx [1, 2] = 1 := by decide
  rw [harg] at h
  simpa using h.2.1


/-! The Optimization Driver and Benchmark Reporter (claims about `main`). -/

example : parseValuations "10,20,15" = Except.ok [10, 20, 15] := by rfl
example : parseValuations " 7 , 3" = Except.ok [7, 3] := by rfl
example : parseValuations "-2" = Except.ok [-2] := by rfl
example : parseValuations ""
    = Except.error "Error parsing valuations. Ensure they are comma-separated numbers." := by rfl

lemma splitOnComma_ne_nil : ∀ cs : List Char, splitOnComma cs ≠ [] := by
  intro cs
  induction cs with
  | nil => simp [splitOnComma]
  | cons c cs ih =>
    show List.foldr _ [[]] (c :: cs) ≠ []
    rw [List.foldr_cons]
    by_cases hc : c = ','
    · simp [hc]
    · simp only [if_neg hc]
      cases h : splitOnComma cs with
      | nil => exact absurd h ih
      | cons t rest =>
        show (match splitOnComma cs with
          | [] => [[c]]
          | t :: rest => (c :: t) :: rest) ≠ []
        rw [h]
        simp

lemma parseTokens_length : ∀ (ts : List (List Char)) (vs : List ℚ),
    parseTokens ts = some vs → vs.length = ts.length := by
  intro ts
  induction ts with
  | nil => intro vs h; simp [parseTokens] at h; simp [← h]
  | cons t ts ih =>
    intro vs h
    simp only [parseTokens] at h
    cases hq : parseFloatTok (stripSpaces t) with
    | none => rw [hq] at h; simp at h
    | some q =>
      rw [hq] at h
      cases hr : parseTokens ts with
      | none => rw [hr] at h; simp at h
      | some qs =>
        rw [hr] at h
        simp at h
        rw [← h]
        simp [ih qs hr]

/-- A successful parse always yields at least one valuation: `split` returns
at least one token and every token must parse. -/
lemma parseValuations_length (s : String) (v : List ℚ)
    (h : parseValuations s = Except.ok v) : 1 ≤ v.length := by
  unfold parseValuations at h
  cases hpt : parseTokens (splitOnComma s.toList) with
  | none => rw [hpt] at h; simp at h
  | some vs =>
    rw [hpt] at h
    simp at h
    rw [← h, parseTokens_length _ _ hpt]
    have hne := splitOnComma_ne_nil s.toList
    cases hsc : splitOnComma s.toList with
    | nil => exact absurd hsc hne
    | cons a l => simp [hsc]

/-- C6: on the malformed valuation string `"10,abc,15"`, `main` fails with
the source's `ValueError` message naming the expected comma-separated
format, and the outcome is the same error for every pair of solvers:
neither `steepest_descent` nor `newton` is invoked on that run. -/
theorem malformed_input_no_solver (sd : GradSolver) (nt : NewtonSolver)
    (mu alpha tol : ℚ) (mi mn : Nat) :
    mainModel sd nt
        { valuations := "10,abc,15", mu := mu, alpha := alpha, tol := tol,
          max_iter := mi, max_iter_newton := mn }
      = Except.error "Error parsing valuations. Ensure they are comma-separated numbers." := by
  have h : parseValuations "10,abc,15"
      = Except.error "Error parsing valuations. Ensure they are comma-separated numbers." := by
    rfl
  simp [mainModel, h]

/-- C7: on any run whose valuations parse, `main` completes with a report in
which the steepest-descent revenue error is always present, Newton's
failure is caught locally and recorded as `z_newton = none`, and the Newton
revenue error is reported if and only if the Newton solver returned a
vector. -/
theorem newton_failure_contained (sd : GradSolver) (nt : NewtonSolver) (args : Args)
    (v : List ℚ) (h : parseValuations args.valuations = Except.ok v) :
    ∃ r : Report,
      mainModel sd nt args = Except.ok r ∧
      r.sd_error = |r.optimal_revenue - r.revenue_sd| ∧
      r.revenue_sd = ((sd (fun z => potential z v args.mu) (initialGuess v.length)
          args.alpha args.tol args.max_iter).drop v.length).sum ∧
      (r.z_newton = none ↔
        ∃ e, nt (fun z => potential z v args.mu) (initialGuess v.length)
            args.tol args.max_iter_newton = Except.error e) ∧
      (r.newton_error = none ↔ r.z_newton = none) := by
  cases hnt : nt (fun z => potential z v args.mu) (initialGuess v.length)
      args.tol args.max_iter_newton with
  | ok zN =>
    simp only [mainModel, h, hnt]
    refine ⟨_, rfl, ?_, ?_, ?_, ?_⟩ <;> simp
  | error e =>
    simp only [mainModel, h, hnt]
    refine ⟨_, rfl, ?_, ?_, ?_, ?_⟩ <;> simp

/-- Witness for C7: valuations `"5"` with a failing Newton solver. -/
theorem newton_failure_contained_witness :
    parseValuations "5" = Except.ok [5] ∧
    ∃ r : Report,
      mainModel sdStub ntStub { valuations := "5" } = Except.ok r ∧
      r.sd_error = |r.optimal_revenue - r.revenue_sd| ∧
      r.revenue_sd = ((sdStub (fun z => potential z [5] (100 : ℚ)) (initialGuess 1)
          (1 / 100) (1 / 1000000) 1000).drop 1).sum ∧
      (r.z_newton = none ↔
        ∃ e, ntStub (fun z => potential z [5] (100 : ℚ)) (initialGuess 1)
            (1 / 1000000) 100 = Except.error e) ∧
      (r.newton_error = none ↔ r.z_newton = none) := by
  have h := newton_failure_contained sdStub ntStub { valuations := "5" } [5] (by rfl)
  exact ⟨by rfl, h⟩

/-- Counterexample to C9 as stated: with the non-positive penalty parameter
`mu = -1` and valuations `"5"`, `main` does not reject the configuration; it
proceeds through both solver branches and produces a report. -/
theorem config_not_validated_counterexample :
    (mainModel sdStub ntStub { valuations := "5", mu := -1 }).isOk = true := by rfl

/-- C9 (amended): a run with zero bidders is impossible — every valuation
string either fails parsing or yields at least one bidder — but the program
performs no validation of `mu`: for every `mu`, non-positive included, a
successfully parsed run proceeds through the solvers and produces output. -/
theorem config_validation_amended (s : String) (v : List ℚ)
    (h : parseValuations s = Except.ok v) :
    1 ≤ v.length ∧
    ∀ (sd : GradSolver) (nt : NewtonSolver) (mu alpha tol : ℚ) (mi mn : Nat),
      (mainModel sd nt
          { valuations := s, mu := mu, alpha := alpha, tol := tol,
            max_iter := mi, max_iter_newton := mn }).isOk = true := by
  refine ⟨parseValuations_length s v h, ?_⟩
  intro sd nt mu alpha tol mi mn
  simp only [mainModel, h]
  cases hnt : nt (fun z => potential z v mu) (initialGuess v.length) tol mn <;> rfl

/-- Witness for the amended C9 at valuations `"5"` and `mu = -1`. -/
theorem config_validation_amended_witness :
    1 ≤ ([(5 : ℚ)] : List ℚ).length ∧
    (mainModel sdStub ntStub
        { valuations := "5", mu := -1, alpha := 1 / 100, tol := 1 / 1000000,
          max_iter := 1000, max_iter_newton := 100 }).isOk = true := by
  have h := config_validation_amended "5" [5] (by rfl)
  exact ⟨h.1, h.2 sdStub ntStub (-1) (1 / 100) (1 / 1000000) 1000 100⟩

end AuctionOpt
